import Mathlib

/-!
Verification development for the asyncio-cmdline repository (cmdline.py).

The development shallowly embeds the pieces of cmdline.py that the checked
claims talk about:

- the incremental UTF-8 decoder with the errors ignore policy, as created at
  line 337 of cmdline.py (codecs.getincrementaldecoder with errors ignore);
  bytes and text are both modelled as lists of natural numbers (byte values
  and Unicode code points respectively);
- the read path of the transport, method _input_available (lines 393-413);
- the write path: methods write and write_eof (lines 481-501) and the
  write-ready callback _output_available (lines 415-450), with the count of
  bytes the OS write call accepts given as a parameter;
- the encoding resolution of the stream identity resolver, method
  _determine_encoding of class _File (lines 168-179);
- the terminal attribute handling of the constructor (lines 348-354) and of
  close (lines 452-458), with the syscalls recorded as an explicit trace;
- a reactor-level wrapper recording reader/writer registrations and the
  descriptor I/O each callback turn performs.
-/

namespace AsyncioCmdline

/-! ## Incremental UTF-8 decoder, errors ignore

Model of the incremental decoder obtained at cmdline.py line 337 via
codecs.getincrementaldecoder(encoding)(errors=ignore) for the UTF-8 encoding.
The decoder state is the list of bytes of the incomplete multi-byte sequence
accumulated so far (empty when no sequence is in progress).  Invalid bytes are
dropped (the ignore policy), following the maximal-subpart rule the Python
codec implements: on an invalid continuation byte the pending bytes are
discarded and the offending byte is reprocessed as a fresh start byte.
-/

/-- Length in bytes of the UTF-8 sequence introduced by a given lead byte. -/
def utf8SeqLen (lead : Nat) : Nat :=
  if lead < 0xE0 then 2 else if lead < 0xF0 then 3 else 4

/-- Whether byte b is a valid continuation byte at position pos (1-based,
position 0 being the lead) of a sequence with the given lead byte.  The
second-byte ranges are the tight ones the Python UTF-8 codec enforces
(no overlong forms, no surrogates, no code points above 0x10FFFF). -/
def utf8ContOk (lead : Nat) (pos : Nat) (b : Nat) : Bool :=
  if pos = 1 then
    if lead = 0xE0 then 0xA0 ≤ b && b ≤ 0xBF
    else if lead = 0xED then 0x80 ≤ b && b ≤ 0x9F
    else if lead = 0xF0 then 0x90 ≤ b && b ≤ 0xBF
    else if lead = 0xF4 then 0x80 ≤ b && b ≤ 0x8F
    else 0x80 ≤ b && b ≤ 0xBF
  else 0x80 ≤ b && b ≤ 0xBF

/-- Code point encoded by a complete UTF-8 sequence (2 to 4 bytes). -/
def utf8DecodeSeq : List Nat → Nat
  | [l, c1] => (l - 0xC0) * 64 + (c1 - 0x80)
  | [l, c1, c2] => (l - 0xE0) * 4096 + (c1 - 0x80) * 64 + (c2 - 0x80)
  | [l, c1, c2, c3] =>
      (l - 0xF0) * 262144 + (c1 - 0x80) * 4096 + (c2 - 0x80) * 64 + (c3 - 0x80)
  | _ => 0

/-- Process one byte with empty decoder state: ASCII bytes are emitted,
valid lead bytes (0xC2 to 0xF4) start a pending sequence, anything else
(stray continuation bytes, 0xC0, 0xC1, 0xF5 to 0xFF) is dropped by the
ignore policy. -/
def utf8StartByte (b : Nat) : List Nat × List Nat :=
  if b < 0x80 then ([b], [])
  else if 0xC2 ≤ b && b ≤ 0xF4 then ([], [b])
  else ([], [])

/-- One step of the incremental UTF-8 decoder with the ignore error policy:
given the pending bytes and the next input byte, return the emitted code
points (zero or one) and the new pending bytes. -/
def utf8ProcessByte (pending : List Nat) (b : Nat) : List Nat × List Nat :=
  match pending with
  | [] => utf8StartByte b
  | lead :: rest =>
    if utf8ContOk lead (rest.length + 1) b then
      if rest.length + 2 = utf8SeqLen lead then
        ([utf8DecodeSeq ((lead :: rest) ++ [b])], [])
      else ([], (lead :: rest) ++ [b])
    else utf8StartByte b

/-- Feed a chunk of bytes to the incremental decoder: returns the emitted
code points and the final pending bytes.  This is the non-final decode call
of the Python incremental decoder; a final decode additionally drops the
pending bytes (ignore policy). -/
def utf8DecodeChunk (pending : List Nat) : List Nat → List Nat × List Nat
  | [] => ([], pending)
  | b :: bs =>
    ((utf8ProcessByte pending b).1 ++
       (utf8DecodeChunk (utf8ProcessByte pending b).2 bs).1,
     (utf8DecodeChunk (utf8ProcessByte pending b).2 bs).2)

/-! ## UTF-8 encoder, errors ignore

Model of the incremental encoder obtained at cmdline.py line 340 via
codecs.getincrementalencoder(encoding)(errors=ignore).  For UTF-8 the only
unencodable code points are the surrogates 0xD800 to 0xDFFF and values above
0x10FFFF; with the ignore policy they produce no bytes.  The encoder has no
shift state for UTF-8, and each transport write finalizes and resets it, so
a plain function of the text is faithful. -/

/-- UTF-8 encoding of a single code point; empty for unencodable ones
(the ignore error policy). -/
def utf8EncodeChar (c : Nat) : List Nat :=
  if c < 0x80 then [c]
  else if c < 0x800 then [0xC0 + c / 64, 0x80 + c % 64]
  else if c < 0x10000 then
    if 0xD800 ≤ c && c ≤ 0xDFFF then []
    else [0xE0 + c / 4096, 0x80 + c / 64 % 64, 0x80 + c % 64]
  else if c ≤ 0x10FFFF then
    [0xF0 + c / 262144, 0x80 + c / 4096 % 64, 0x80 + c / 64 % 64, 0x80 + c % 64]
  else []

/-- UTF-8 encoding of a text with the ignore error policy. -/
def utf8EncodeIgnore (cs : List Nat) : List Nat :=
  (cs.map utf8EncodeChar).flatten

/-- A code point the UTF-8 encoder can represent: a Unicode scalar value. -/
def encodableChar (c : Nat) : Bool :=
  (c < 0xD800 || 0xDFFF < c) && c ≤ 0x10FFFF

/-! ## Read path: _input_available (cmdline.py lines 393-413)

The method reads up to 4096 bytes, then repeatedly partitions the raw buffer
at the first newline byte; each complete line is decoded with a final decode
call and the join of the input accumulator is dispatched to the protocol;
the trailing remainder, when non-empty, is decoded non-final into the
accumulator.  The Python accumulator _input_buf is a list of string
fragments only ever observed through its join; it is modelled here by that
join, a single list of code points. -/

/-- Decoder pending bytes plus text accumulator: the state the read path
carries between read-ready callbacks (_input_decoder state and the join of
_input_buf). -/
structure InState where
  pending : List Nat
  buf : List Nat
deriving DecidableEq, Repr

/-- Split a byte sequence at newline bytes: the list of complete
newline-terminated segments (newlines stripped) and the trailing remainder.
This is the repeated partition at the first newline byte performed by the
while loop of _input_available. -/
def splitNl : List Nat → List (List Nat) × List Nat
  | [] => ([], [])
  | b :: bs =>
    if b = 10 then ([] :: (splitNl bs).1, (splitNl bs).2)
    else
      match (splitNl bs).1 with
      | [] => ([], b :: (splitNl bs).2)
      | l :: ls => ((b :: l) :: ls, (splitNl bs).2)

/-- Process the complete lines of one read: for each line, decode it with a
final decode call (pending bytes of an incomplete sequence at the end of the
line are dropped by the ignore policy, matching decode with final true
followed by reset), dispatch the accumulator joined with the decoded piece,
and clear the accumulator.  Returns the dispatched texts and the decoder
pending bytes and accumulator left after the last line. -/
def processLines (pending buf : List Nat) :
    List (List Nat) → List (List Nat) × List Nat × List Nat
  | [] => ([], pending, buf)
  | l :: ls =>
    ((buf ++ (utf8DecodeChunk pending l).1) :: (processLines [] [] ls).1,
     (processLines [] [] ls).2.1,
     (processLines [] [] ls).2.2)

/-- The read-ready callback _input_available on one delivered byte sequence:
returns the texts dispatched to the protocol (in dispatch order) and the new
transport input state.  When the remainder after the last newline is empty
the method returns without touching the accumulator; otherwise the remainder
is decoded non-final into the accumulator.  A zero-length read (end of file)
takes the early return path and performs no dispatch. -/
def input_available (st : InState) (raw : List Nat) :
    List (List Nat) × InState :=
  ((processLines st.pending st.buf (splitNl raw).1).1,
   if (splitNl raw).2 = [] then
     ⟨(processLines st.pending st.buf (splitNl raw).1).2.1,
      (processLines st.pending st.buf (splitNl raw).1).2.2⟩
   else
     ⟨(utf8DecodeChunk (processLines st.pending st.buf (splitNl raw).1).2.1
         (splitNl raw).2).2,
      (processLines st.pending st.buf (splitNl raw).1).2.2 ++
        (utf8DecodeChunk (processLines st.pending st.buf (splitNl raw).1).2.1
           (splitNl raw).2).1⟩)

/-- Number of newline bytes in a byte sequence. -/
def countNl : List Nat → Nat
  | [] => 0
  | b :: bs => (if b = 10 then 1 else 0) + countNl bs

-- Sanity checks of the model on concrete inputs.
example : splitNl [97, 98, 10, 99, 100] = ([[97, 98]], [99, 100]) := by decide
example :
    input_available ⟨[], []⟩ [97, 98, 10, 99] = ([[97, 98]], ⟨[], [99]⟩) := by
  decide
example :
    input_available ⟨[], []⟩ [97, 0xC3] = ([], ⟨[0xC3], [97]⟩) := by decide
example :
    input_available ⟨[0xC3], [97]⟩ [0xA9, 10] = ([[97, 0xE9]], ⟨[], []⟩) := by
  decide
example :
    input_available ⟨[], []⟩ [97, 255, 98, 10] = ([[97, 98]], ⟨[], []⟩) := by
  decide

/-! ## Write path (cmdline.py lines 379-391, 415-450, 481-501)

The outbound queue _output_buf is a deque of byte chunks; write and
write_eof finalize the encoder on the given text, skip empty results and
otherwise append the chunk and register the write-ready callback with the
reactor (_add_writer; registration is idempotent in asyncio).  The
write-ready callback _output_available deregisters the writer and fsyncs
when it finds the queue empty; otherwise it pops the front chunk, writes at
most 4096 of its bytes, and puts the unwritten remainder back at the front
when the OS accepted fewer bytes than the chunk holds.  The number of bytes
the OS write call accepts is a parameter of the model; the OS never accepts
more than requested. -/

/-- Outbound queue of byte chunks plus whether a write-ready registration
with the reactor currently exists. -/
structure OutState where
  queue : List (List Nat)
  writer : Bool
deriving DecidableEq, Repr

/-- Transport method write (lines 492-501): finalize the encoder on the
text; an empty byte result is a no-op, otherwise append the chunk to the
outbound queue and register the writer callback. -/
def write (st : OutState) (data : List Nat) : OutState :=
  if utf8EncodeIgnore data = [] then st
  else { queue := st.queue ++ [utf8EncodeIgnore data], writer := true }

/-- Transport method write_eof (lines 481-490): same path with an empty
finalization of the encoder, which for UTF-8 (no shift state) yields no
bytes. -/
def write_eof (st : OutState) : OutState :=
  if utf8EncodeIgnore [] = [] then st
  else { queue := st.queue ++ [utf8EncodeIgnore []], writer := true }

/-- The write-ready callback _output_available (lines 415-450), with accept
the number of bytes the OS write call reports as written (capped by the
requested amount, which is at most 4096 bytes of the front chunk).  Returns
the new state and the bytes actually delivered to the output descriptor
this turn. -/
def output_available (st : OutState) (accept : Nat) : OutState × List Nat :=
  match st.queue with
  | [] => ({ queue := [], writer := false }, [])
  | chunk :: rest =>
    if chunk = [] then ({ queue := rest, writer := st.writer }, [])
    else
      if min accept (min 4096 chunk.length) ≥ chunk.length then
        ({ queue := rest, writer := st.writer },
         chunk.take (min accept (min 4096 chunk.length)))
      else
        ({ queue := chunk.drop (min accept (min 4096 chunk.length)) :: rest,
           writer := st.writer },
         chunk.take (min accept (min 4096 chunk.length)))

/-- A sequence of write-ready turns with the given accepted byte counts:
returns the final state and the concatenation of all bytes delivered to the
output descriptor. -/
def runTurns (st : OutState) : List Nat → OutState × List Nat
  | [] => (st, [])
  | a :: as =>
    ((runTurns (output_available st a).1 as).1,
     (output_available st a).2 ++ (runTurns (output_available st a).1 as).2)

/-! ## Encoding resolution (_File._determine_encoding, lines 168-179) -/

/-- The text-layer wrapper already present on a handle, as seen by the
resolver: all that _determine_encoding reads from it is the encoding it
reports (which a text layer may report as absent). -/
structure TextView where
  encoding : Option String
deriving DecidableEq, Repr

/-- Encoding an existing text layer reports, if a text layer exists. -/
def textReported (text : Option TextView) : Option String :=
  match text with
  | some t => t.encoding
  | none => none

/-- OS device encoding of the descriptor, if a descriptor exists. -/
def devReported (fd : Option Nat) (devEnc : Nat → Option String) :
    Option String :=
  match fd with
  | some f => devEnc f
  | none => none

/-- _File._determine_encoding (lines 168-179): take the explicit hint; if
absent, the encoding reported by a pre-existing text layer; if still absent
and a descriptor exists, the OS device encoding; otherwise utf-8. -/
def determine_encoding (hint : Option String) (text : Option TextView)
    (fd : Option Nat) (devEnc : Nat → Option String) : String :=
  match (match (match hint with
                | none => textReported text
                | some s => some s) with
         | none => devReported fd devEnc
         | some s => some s) with
  | none => "utf-8"
  | some s => s

/-- Decode error policy of the text layer the resolver builds
(_File._maybe_text_from_bytes, line 265): replace for a tty stream, strict
otherwise.  The transport read path does not use this layer. -/
def text_layer_errors (isatty : Bool) : String :=
  if isatty then "replace" else "strict"

/-! ## Terminal attributes (constructor lines 348-354, close lines 452-458)

The constructor, when the input stream is a tty, captures the terminal
attributes, then reads them again, clears canonical mode, sets VMIN to 1 and
VTIME to 0, and applies the modified attributes with TCSADRAIN.  close sets
the protocol reference to none and, whenever saved attributes exist,
reapplies them with TCSAFLUSH; close never clears the saved attributes.
The syscalls performed are recorded as an explicit trace. -/

/-- Terminal attributes, abstracted to the fields the code touches (the
ICANON bit of the local-mode flags, the VMIN and VTIME control characters)
plus one field standing for everything it leaves alone. -/
structure TermAttr where
  icanon : Bool
  vmin : Nat
  vtime : Nat
  rest : Nat
deriving DecidableEq, Repr

/-- The raw-mode variant of given attributes: canonical mode cleared,
VMIN 1, VTIME 0, everything else untouched (lines 351-353). -/
def rawify (a : TermAttr) : TermAttr :=
  { a with icanon := false, vmin := 1, vtime := 0 }

/-- The optional-action argument of tcsetattr used by the code. -/
inductive TcWhen
  | tcsadrain
  | tcsaflush
deriving DecidableEq, Repr

/-- A terminal-attribute syscall on the input descriptor. -/
inductive TcCall
  | tcgetattr
  | tcsetattr (w : TcWhen) (a : TermAttr)
deriving DecidableEq, Repr

/-- Result of the terminal part of the transport constructor: the captured
attributes (if any), the attributes the terminal now has, and the syscalls
performed, in order. -/
structure CtorTermResult where
  savedAttr : Option TermAttr
  term : TermAttr
  calls : List TcCall
deriving DecidableEq, Repr

/-- Terminal part of the transport constructor (lines 348-354) run against a
terminal whose current attributes are t: for a tty input the attributes are
captured before any modification and the raw-mode variant is applied with
TCSADRAIN; for a non-tty input nothing is captured and no syscall happens. -/
def constructTerm (isatty : Bool) (t : TermAttr) : CtorTermResult :=
  if isatty then
    { savedAttr := some t,
      term := rawify t,
      calls := [TcCall.tcgetattr, TcCall.tcgetattr,
                TcCall.tcsetattr TcWhen.tcsadrain (rawify t)] }
  else
    { savedAttr := none, term := t, calls := [] }

/-- The state close operates on: the saved attributes, the protocol
reference, and the terminal's current attributes. -/
structure CloseSt where
  savedAttr : Option TermAttr
  protocol : Option Nat
  term : TermAttr
deriving DecidableEq, Repr

/-- Transport method close (lines 452-458): clear the protocol reference;
when saved attributes exist (close never clears them), reapply them with
TCSAFLUSH.  Returns the new state and the syscalls performed. -/
def closeOnce (s : CloseSt) : CloseSt × List TcCall :=
  match s.savedAttr with
  | some a =>
    ({ savedAttr := some a, protocol := none, term := a },
     [TcCall.tcsetattr TcWhen.tcsaflush a])
  | none => ({ s with protocol := none }, [])

/-- Calling close n times in a row, collecting all syscalls performed. -/
def closeN (s : CloseSt) : Nat → CloseSt × List TcCall
  | 0 => (s, [])
  | n + 1 =>
    ((closeN (closeOnce s).1 n).1,
     (closeOnce s).2 ++ (closeN (closeOnce s).1 n).2)

/-! ## Reactor-level transport state (lines 326-391, 452-461)

The constructor registers the read-ready callback; write registers the
write-ready callback; _output_available deregisters it when the queue is
found empty.  close (lines 452-458) clears the protocol reference and
restores terminal attributes; it does not deregister the reader or the
writer and does not clear the outbound queue.  The reactor invokes a
callback exactly when the corresponding registration exists; the descriptor
I/O a turn performs is recorded as events. -/

/-- Descriptor I/O performed during a reactor callback turn. -/
inductive IoEvent
  | readFd (n : Nat)
  | writeFd (bytes : List Nat)
  | fsyncFd
deriving DecidableEq, Repr

/-- Transport state as the reactor sees it: protocol reference, reader
registration, read-path state, outbound state (including the writer
registration), saved terminal attributes. -/
structure Transport where
  protocol : Option Nat
  readerReg : Bool
  inSt : InState
  outSt : OutState
  savedAttr : Option TermAttr
deriving DecidableEq, Repr

/-- Transport method write lifted to the reactor-level state. -/
def writeT (t : Transport) (data : List Nat) : Transport :=
  { t with outSt := write t.outSt data }

/-- Transport method close at the reactor level: only the protocol
reference changes (the terminal attribute restore is modelled by closeOnce
above); reader and writer registrations and the outbound queue survive. -/
def closeT (t : Transport) : Transport :=
  { t with protocol := none }

/-- Transport method is_closing (lines 460-461): the protocol reference is
cleared. -/
def is_closingT (t : Transport) : Bool :=
  t.protocol = none

/-- A read-ready reactor turn delivering the given bytes: when the reader
registration exists the callback _input_available runs and reads the input
descriptor; otherwise nothing happens. -/
def readTurn (t : Transport) (raw : List Nat) : Transport × List IoEvent :=
  if t.readerReg then
    ({ t with inSt := (input_available t.inSt raw).2 },
     [IoEvent.readFd raw.length])
  else (t, [])

/-- A write-ready reactor turn: when the writer registration exists the
callback _output_available runs; an empty queue leads to an fsync of the
output descriptor, a non-empty front chunk to a write on it. -/
def writeTurn (t : Transport) (accept : Nat) : Transport × List IoEvent :=
  if t.outSt.writer then
    ({ t with outSt := (output_available t.outSt accept).1 },
     if t.outSt.queue = [] then [IoEvent.fsyncFd]
     else if t.outSt.queue.head? = some [] then []
     else [IoEvent.writeFd (output_available t.outSt accept).2])
  else (t, [])

-- Sanity checks of the write-path model.
example : write ⟨[], false⟩ [65] = ⟨[[65]], true⟩ := by decide
example :
    output_available ⟨[[65]], true⟩ 4096 = (⟨[], true⟩, [65]) := by decide
example :
    output_available ⟨[[65, 66]], true⟩ 1 = (⟨[[66]], true⟩, [65]) := by
  decide
example : output_available ⟨[[65, 66]], true⟩ 0 = (⟨[[65, 66]], true⟩, []) := by
  decide
example : output_available ⟨[], true⟩ 7 = (⟨[], false⟩, []) := by decide
example : utf8EncodeIgnore [0xD800] = [] := by decide
example : utf8EncodeIgnore [233] = [0xC3, 0xA9] := by decide

/-! ## Helper lemmas: write path -/

/-- One write-ready turn neither loses nor duplicates outbound bytes: the
bytes it delivers followed by what remains queued are exactly what was
queued before. -/
theorem output_available_conserve (st : OutState) (a : Nat) :
    (output_available st a).2 ++ (output_available st a).1.queue.flatten =
      st.queue.flatten := by
  rcases st with ⟨queue, writer⟩
  cases queue with
  | nil => simp [output_available]
  | cons chunk rest =>
    by_cases hc : chunk = []
    · simp [output_available, hc]
    · by_cases hge : min a (min 4096 chunk.length) ≥ chunk.length
      · have : min a (min 4096 chunk.length) ≤ chunk.length := by omega
        simp [output_available, hc, hge, List.take_of_length_le hge]
      · simp only [output_available, hc, hge, if_neg, if_false,
          List.flatten_cons]
        rw [← List.append_assoc, List.take_append_drop]

/-- Conservation over any sequence of write-ready turns. -/
theorem runTurns_conserve (accepts : List Nat) : ∀ (st : OutState),
    (runTurns st accepts).2 ++ (runTurns st accepts).1.queue.flatten =
      st.queue.flatten := by
  induction accepts with
  | nil => intro st; simp [runTurns]
  | cons a as ih =>
    intro st
    have h1 := output_available_conserve st a
    have h2 := ih (output_available st a).1
    simp only [runTurns, List.append_assoc]
    rw [h2, h1]

/-! ## Claim theorems: write path -/

/-- C2: write chunking round-trip.  For every text T given to write and
every sequence of write-ready turns with arbitrary accepted byte counts,
the bytes delivered to the output descriptor followed by the bytes still
queued are exactly the encoding of T (no loss, no duplication, in order);
once the queue has drained the descriptor has received exactly the encoding
of T; a single turn writes at most 4096 bytes; a zero-byte OS write leaves
the state unchanged; a partial OS write re-queues the unconsumed remainder
at the front of the queue. -/
theorem write_chunking_C2 (T : List Nat) (accepts : List Nat) :
    (runTurns (write ⟨[], false⟩ T) accepts).2 ++
        (runTurns (write ⟨[], false⟩ T) accepts).1.queue.flatten =
      utf8EncodeIgnore T
  ∧ ((runTurns (write ⟨[], false⟩ T) accepts).1.queue = [] →
      (runTurns (write ⟨[], false⟩ T) accepts).2 = utf8EncodeIgnore T)
  ∧ (∀ (st : OutState) (a : Nat), (output_available st a).2.length ≤ 4096)
  ∧ (∀ (st : OutState) (c : List Nat) (r : List (List Nat)),
      st.queue = c :: r → c ≠ [] → (output_available st 0).1 = st)
  ∧ (∀ (st : OutState) (c : List Nat) (r : List (List Nat)) (a : Nat),
      st.queue = c :: r → c ≠ [] →
      min a (min 4096 c.length) < c.length →
      (output_available st a).1.queue =
        c.drop (min a (min 4096 c.length)) :: r) := by
  have hq : (write ⟨[], false⟩ T : OutState).queue.flatten =
      utf8EncodeIgnore T := by
    by_cases he : utf8EncodeIgnore T = []
    · simp [write, he]
    · simp [write, he]
  have hcons := runTurns_conserve accepts (write ⟨[], false⟩ T)
  rw [hq] at hcons
  refine ⟨hcons, ?_, ?_, ?_, ?_⟩
  · intro hdrained
    rw [hdrained] at hcons
    simpa using hcons
  · intro st a
    rcases st with ⟨queue, writer⟩
    cases queue with
    | nil => simp [output_available]
    | cons chunk rest =>
      by_cases hc : chunk = []
      · simp [output_available, hc]
      · by_cases hge : min a (min 4096 chunk.length) ≥ chunk.length
        · simp [output_available, hc, hge, List.length_take]
        · simp [output_available, hc, hge, List.length_take]
  · intro st c r hst hc
    rcases st with ⟨queue, writer⟩
    simp only at hst
    subst hst
    have hlen : 0 < c.length := List.length_pos.mpr hc
    have hge : ¬ min 0 (min 4096 c.length) ≥ c.length := by omega
    simp [output_available, hc, hge]
  · intro st c r a hst hc hlt
    rcases st with ⟨queue, writer⟩
    simp only at hst
    subst hst
    have hge : ¬ min a (min 4096 c.length) ≥ c.length := by omega
    simp [output_available, hc, hge]

/-- Witness for C2 at concrete inputs: the text "hi" written and drained in
two one-byte turns reaches the descriptor exactly as its encoding; a
zero-byte write leaves a queued chunk untouched; a partial write re-queues
the remainder. -/
theorem write_chunking_C2_witness :
    (runTurns (write ⟨[], false⟩ [104, 105]) [1, 1]).2 =
      utf8EncodeIgnore [104, 105]
  ∧ (output_available ⟨[[65]], true⟩ 0).1 = ⟨[[65]], true⟩
  ∧ (output_available ⟨[[65, 66]], true⟩ 1).1.queue = [[66]] := by
  refine ⟨(write_chunking_C2 [104, 105] [1, 1]).2.1 (by decide), ?_, ?_⟩
  · exact (write_chunking_C2 [] []).2.2.2.1 ⟨[[65]], true⟩ [65] [] rfl
      (by decide)
  · exact Eq.trans
      ((write_chunking_C2 [] []).2.2.2.2 ⟨[[65, 66]], true⟩ [65, 66] [] 1 rfl
        (by decide) (by decide))
      (by decide)

/-- C3 counterexample: the claimed invariant (writer registration iff
non-empty queue, restored by the end of every callback turn) fails on the
code: after write enqueues one small chunk and a single write-ready turn
fully drains it, the turn ends with an empty queue while the writer
registration still exists; it is only removed by the next write-ready
callback. -/
theorem queue_writer_C3_counterexample :
    (output_available (write ⟨[], false⟩ [65]) 4096).1.queue = []
  ∧ (output_available (write ⟨[], false⟩ [65]) 4096).1.writer = true := by
  decide

/-- C3 amended: only one direction of the invariant holds at the end of
every operation: whenever the queue is non-empty a writer registration
exists.  After the turn that drains the last chunk the registration
persists; it is removed by the next write-ready callback, which observes
the empty queue. -/
theorem queue_writer_C3_amended (st : OutState) (d : List Nat) (a : Nat) :
    ((st.queue ≠ [] → st.writer = true) →
      ((write st d).queue ≠ [] → (write st d).writer = true))
  ∧ ((st.queue ≠ [] → st.writer = true) →
      ((output_available st a).1.queue ≠ [] →
        (output_available st a).1.writer = true))
  ∧ (st.queue = [] → (output_available st a).1.writer = false) := by
  rcases st with ⟨queue, writer⟩
  refine ⟨?_, ?_, ?_⟩
  · intro hinv hne
    by_cases he : utf8EncodeIgnore d = []
    · simp only [write, he, if_pos] at hne ⊢
      exact hinv hne
    · simp [write, he]
  · intro hinv hne
    cases queue with
    | nil => simp [output_available] at hne
    | cons chunk rest =>
      have hw : writer = true := hinv (by simp)
      by_cases hc : chunk = []
      · simp [output_available, hc, hw]
      · by_cases hge : min a (min 4096 chunk.length) ≥ chunk.length
        · simp [output_available, hc, hge, hw]
        · simp [output_available, hc, hge, hw]
  · intro hq
    simp only at hq
    subst hq
    simp [output_available]

/-- Witness for C3 amended at concrete inputs. -/
theorem queue_writer_C3_witness :
    (output_available ⟨[[65]], true⟩ 0).1.writer = true
  ∧ (output_available ⟨[], false⟩ 3).1.writer = false := by
  refine ⟨?_, ?_⟩
  · exact (queue_writer_C3_amended ⟨[[65]], true⟩ [] 0).2.1
      (fun _ => rfl) (by decide)
  · exact (queue_writer_C3_amended ⟨[], false⟩ [] 3).2.2 rfl

/-- C10: the ignore-errors output encoder never fails; the enqueued chunk
is exactly the ignore-errors encoding of the text, which silently omits
characters the encoding cannot represent (for UTF-8: surrogates and values
above 0x10FFFF), so unencodable input reduces to an empty chunk and the
write becomes a no-op; write_eof flushes an encoder without shift state and
is always a no-op. -/
theorem output_ignore_C10 (st : OutState) (d : List Nat) :
    (write st d).queue =
      st.queue ++
        (if utf8EncodeIgnore d = [] then [] else [utf8EncodeIgnore d])
  ∧ utf8EncodeIgnore d = utf8EncodeIgnore (d.filter fun c => encodableChar c)
  ∧ write_eof st = st
  ∧ (utf8EncodeIgnore d = [] → write st d = st) := by
  refine ⟨?_, ?_, ?_, ?_⟩
  · by_cases he : utf8EncodeIgnore d = []
    · simp [write, he]
    · simp [write, he]
  · induction d with
    | nil => rfl
    | cons c cs ih =>
      by_cases hc : encodableChar c = true
      · simp [utf8EncodeIgnore, List.filter_cons, hc] at ih ⊢
        exact ih
      · have hzero : utf8EncodeChar c = [] := by
          have hcond : (0xD800 ≤ c ∧ c ≤ 0xDFFF) ∨ 0x10FFFF < c := by
            simp [encodableChar] at hc
            omega
          unfold utf8EncodeChar
          split_ifs with h1 h2 h3 h4 h5 <;>
            first
              | rfl
              | (exfalso
                 try simp_all only [Bool.and_eq_true, decide_eq_true_eq,
                   not_and, not_le, not_lt]
                 omega)
        simp [utf8EncodeIgnore, List.filter_cons, hc, hzero] at ih ⊢
        exact ih
  · simp [write_eof, utf8EncodeIgnore]
  · intro he
    simp [write, he]

/-- Witness for C10: a lone surrogate encodes to nothing and its write is a
no-op. -/
theorem output_ignore_C10_witness :
    write ⟨[], false⟩ [0xD800] = ⟨[], false⟩ := by
  exact (output_ignore_C10 ⟨[], false⟩ [0xD800]).2.2.2 (by decide)

/-! ## Claim theorems: encoding resolution -/

/-- C7: the resolved encoding is the explicit hint when given; otherwise
the encoding a pre-existing text layer reports, when it reports one;
otherwise the OS device encoding of the descriptor, when there is one;
otherwise utf-8. -/
theorem encoding_resolution_C7 (hint : Option String) (text : Option TextView)
    (fd : Option Nat) (devEnc : Nat → Option String) :
    (∀ s, hint = some s → determine_encoding hint text fd devEnc = s)
  ∧ (hint = none → ∀ s, textReported text = some s →
      determine_encoding hint text fd devEnc = s)
  ∧ (hint = none → textReported text = none → ∀ s,
      devReported fd devEnc = some s →
      determine_encoding hint text fd devEnc = s)
  ∧ (hint = none → textReported text = none → devReported fd devEnc = none →
      determine_encoding hint text fd devEnc = "utf-8") := by
  refine ⟨?_, ?_, ?_, ?_⟩
  · intro s hs
    subst hs
    rfl
  · intro hh s ht
    subst hh
    simp [determine_encoding, ht]
  · intro hh ht s hd
    subst hh
    simp [determine_encoding, ht, hd]
  · intro hh ht hd
    subst hh
    simp [determine_encoding, ht, hd]

/-- Witness for C7: each of the four resolution outcomes at a concrete
input. -/
theorem encoding_resolution_C7_witness :
    determine_encoding (some "latin-1") (some ⟨some "cp437"⟩) (some 0)
      (fun _ => some "ascii") = "latin-1"
  ∧ determine_encoding none (some ⟨some "cp437"⟩) (some 0)
      (fun _ => some "ascii") = "cp437"
  ∧ determine_encoding none (some ⟨none⟩) (some 0)
      (fun _ => some "ascii") = "ascii"
  ∧ determine_encoding none none none (fun _ => none) = "utf-8" := by
  refine ⟨?_, ?_, ?_, ?_⟩
  · exact (encoding_resolution_C7 (some "latin-1") (some ⟨some "cp437"⟩)
      (some 0) (fun _ => some "ascii")).1 "latin-1" rfl
  · exact (encoding_resolution_C7 none (some ⟨some "cp437"⟩) (some 0)
      (fun _ => some "ascii")).2.1 rfl "cp437" rfl
  · exact (encoding_resolution_C7 none (some ⟨none⟩) (some 0)
      (fun _ => some "ascii")).2.2.1 rfl rfl "ascii" rfl
  · exact (encoding_resolution_C7 none none none
      (fun _ => none)).2.2.2 rfl rfl rfl

/-! ## Helper lemmas: terminal attributes -/

/-- Repeated closes on a state with saved attributes: every close reapplies
the saved attributes with TCSAFLUSH, and after at least one close the
terminal holds the saved attributes. -/
theorem closeN_saved (a : TermAttr) : ∀ (n : Nat) (p : Option Nat)
    (t : TermAttr),
    (closeN ⟨some a, p, t⟩ n).2 =
      List.replicate n (TcCall.tcsetattr TcWhen.tcsaflush a)
  ∧ (1 ≤ n → (closeN ⟨some a, p, t⟩ n).1.term = a) := by
  intro n
  induction n with
  | zero => intro p t; exact ⟨rfl, by omega⟩
  | succ m ih =>
    intro p t
    have h1 : closeOnce ⟨some a, p, t⟩ =
        (⟨some a, none, a⟩, [TcCall.tcsetattr TcWhen.tcsaflush a]) := rfl
    constructor
    · simp only [closeN, h1, (ih none a).1, List.replicate_succ]
      rfl
    · intro _
      cases m with
      | zero => simp [closeN, h1]
      | succ k =>
        simp only [closeN, h1]
        exact (ih none a).2 (by omega)

/-! ## Claim theorems: terminal attributes -/

/-- C5 counterexample: the restore is not performed exactly once when close
is called multiple times — after construction on a tty terminal, two calls
to close issue the TCSAFLUSH restore syscall twice (close never clears the
saved attributes). -/
theorem raw_restore_C5_counterexample :
    (closeN ⟨(constructTerm true ⟨true, 0, 1, 7⟩).savedAttr, some 0,
             (constructTerm true ⟨true, 0, 1, 7⟩).term⟩ 2).2 =
      [TcCall.tcsetattr TcWhen.tcsaflush ⟨true, 0, 1, 7⟩,
       TcCall.tcsetattr TcWhen.tcsaflush ⟨true, 0, 1, 7⟩]
  ∧ (closeN ⟨(constructTerm true ⟨true, 0, 1, 7⟩).savedAttr, some 0,
             (constructTerm true ⟨true, 0, 1, 7⟩).term⟩ 2).2.length ≠ 1 := by
  decide

/-- C5 amended: for a tty input, construction captures the attributes
before modifying them and applies the raw-mode variant with TCSADRAIN;
every call to close (not only the first) reapplies exactly the captured
attributes with TCSAFLUSH, so after any positive number of closes the
terminal holds the captured attributes; for a non-tty input nothing is
captured and close performs no terminal-attribute syscall. -/
theorem raw_restore_C5_amended (a : TermAttr) (n : Nat) :
    (constructTerm true a).savedAttr = some a
  ∧ (constructTerm true a).term = rawify a
  ∧ (constructTerm true a).calls =
      [TcCall.tcgetattr, TcCall.tcgetattr,
       TcCall.tcsetattr TcWhen.tcsadrain (rawify a)]
  ∧ (closeN ⟨some a, some 0, rawify a⟩ n).2 =
      List.replicate n (TcCall.tcsetattr TcWhen.tcsaflush a)
  ∧ (1 ≤ n → (closeN ⟨some a, some 0, rawify a⟩ n).1.term = a)
  ∧ (constructTerm false a).savedAttr = none
  ∧ (constructTerm false a).calls = []
  ∧ (closeOnce ⟨(constructTerm false a).savedAttr, some 0, a⟩).2 = [] := by
  refine ⟨rfl, rfl, rfl, (closeN_saved a n (some 0) (rawify a)).1,
    (closeN_saved a n (some 0) (rawify a)).2, rfl, rfl, rfl⟩

/-- Witness for C5 amended at a concrete attribute record and one close. -/
theorem raw_restore_C5_witness :
    (closeN ⟨some ⟨true, 2, 3, 4⟩, some 0, rawify ⟨true, 2, 3, 4⟩⟩ 1).2 =
      [TcCall.tcsetattr TcWhen.tcsaflush ⟨true, 2, 3, 4⟩]
  ∧ (closeN ⟨some ⟨true, 2, 3, 4⟩, some 0, rawify ⟨true, 2, 3, 4⟩⟩ 1).1.term =
      ⟨true, 2, 3, 4⟩ := by
  exact ⟨(raw_restore_C5_amended ⟨true, 2, 3, 4⟩ 1).2.2.2.1,
    (raw_restore_C5_amended ⟨true, 2, 3, 4⟩ 1).2.2.2.2.1 (by decide)⟩

/-! ## Claim theorems: quiescence after close -/

/-- C9 counterexample: after a write enqueues a chunk and close is called,
a later read-ready turn still reads the input descriptor and a later
write-ready turn still writes the queued chunk to the output descriptor —
close deregisters neither callback and does not clear the queue, so I/O
continues after close. -/
theorem quiescence_C9_counterexample :
    (readTurn (closeT (writeT ⟨some 0, true, ⟨[], []⟩, ⟨[], false⟩, none⟩
        [65])) [120]).2 = [IoEvent.readFd 1]
  ∧ (writeTurn (closeT (writeT ⟨some 0, true, ⟨[], []⟩, ⟨[], false⟩, none⟩
        [65])) 4096).2 = [IoEvent.writeFd [65]] := by
  decide

/-- C9 amended: close marks the transport as closing and clears the
protocol reference, but leaves the reader registration, the writer
registration and the outbound queue untouched, so subsequent read-ready and
write-ready turns perform exactly the descriptor I/O they would have
performed without the close. -/
theorem quiescence_C9_amended (t : Transport) (raw : List Nat) (a : Nat) :
    is_closingT (closeT t) = true
  ∧ (closeT t).readerReg = t.readerReg
  ∧ (closeT t).outSt = t.outSt
  ∧ (readTurn (closeT t) raw).2 = (readTurn t raw).2
  ∧ (writeTurn (closeT t) a).2 = (writeTurn t a).2 := by
  refine ⟨?_, rfl, rfl, ?_, ?_⟩
  · simp [is_closingT, closeT]
  · by_cases h : t.readerReg <;> simp [readTurn, closeT, h]
  · by_cases h : t.outSt.writer <;> simp [writeTurn, closeT, h]

/-! ## Claim theorems: EOF handling -/

/-- C4: what the code does at a zero-length read.  The read-ready callback
is a complete no-op on a zero-length read: it dispatches nothing, leaves
the retained partial-line text buffered, and (the embedding has no
end-of-file path at all, mirroring the source, which never invokes
eof_received) notifies nobody.  In particular for total input abc newline
def followed by end of file, only abc is ever dispatched and def stays in
the accumulator forever, contradicting the specified dispatch sequence. -/
theorem eof_zero_read_C4 (st : InState) :
    input_available st [] = ([], st)
  ∧ (input_available ⟨[], []⟩ [97, 98, 99, 10, 100, 101, 102]).1 =
      [[97, 98, 99]]
  ∧ (input_available ⟨[], []⟩ [97, 98, 99, 10, 100, 101, 102]).2 =
      ⟨[], [100, 101, 102]⟩
  ∧ (input_available
        (input_available ⟨[], []⟩ [97, 98, 99, 10, 100, 101, 102]).2 []).1 =
      [] := by
  exact ⟨rfl, by decide, by decide, by decide⟩

/-- C6 counterexample: the transport read path does not substitute a
replacement marker for malformed bytes — the malformed byte 0xFF in the
tty-or-not input stream is silently dropped by the ignore-errors decoder:
the dispatched text for input 97 255 98 10 is just 97 98 and no replacement
marker 65533 appears anywhere in the dispatched output. -/
theorem decode_policy_C6_counterexample :
    (input_available ⟨[], []⟩ [97, 255, 98, 10]).1 = [[97, 98]]
  ∧ (65533 : Nat) ∉ (input_available ⟨[], []⟩ [97, 255, 98, 10]).1.flatten := by
  decide

/-- C6 amended: decoding on the transport read path never raises and uses
the ignore policy regardless of tty-ness: invalid lead bytes are silently
dropped, producing no output and no replacement marker; the text layer the
resolver builds (which the read path does not use) is configured with the
replace policy for a tty stream and the strict policy otherwise. -/
theorem decode_policy_C6_amended (b : Nat) :
    (0x80 ≤ b → b < 0xC2 → utf8StartByte b = ([], []))
  ∧ (0xF5 ≤ b → utf8StartByte b = ([], []))
  ∧ (input_available ⟨[], []⟩ [97, 255, 98, 10]).1 = [[97, 98]]
  ∧ text_layer_errors true = "replace"
  ∧ text_layer_errors false = "strict" := by
  refine ⟨?_, ?_, by decide, rfl, rfl⟩
  · intro h1 h2
    have ha : ¬ b < 0x80 := by omega
    have hb : ¬ (0xC2 ≤ b && b ≤ 0xF4) = true := by
      simp only [Bool.and_eq_true, decide_eq_true_eq, not_and]
      omega
    simp [utf8StartByte, ha, hb]
  · intro h1
    have ha : ¬ b < 0x80 := by omega
    have hb : ¬ (0xC2 ≤ b && b ≤ 0xF4) = true := by
      simp only [Bool.and_eq_true, decide_eq_true_eq, not_and]
      omega
    simp [utf8StartByte, ha, hb]

/-- Witness for C6 amended: stray continuation byte 0x90 and invalid lead
0xF7 are both dropped. -/
theorem decode_policy_C6_witness :
    utf8StartByte 0x90 = ([], []) ∧ utf8StartByte 0xF7 = ([], []) := by
  exact ⟨(decode_policy_C6_amended 0x90).1 (by decide) (by decide),
    (decode_policy_C6_amended 0xF7).2.1 (by decide)⟩

/-! ## Helper lemmas: read path -/

/-- Feeding the incremental decoder two chunks in sequence produces the same
output and the same final pending bytes as feeding their concatenation:
decoder state persists across calls. -/
theorem utf8DecodeChunk_append (a b : List Nat) : ∀ (p : List Nat),
    utf8DecodeChunk p (a ++ b) =
      ((utf8DecodeChunk p a).1 ++
         (utf8DecodeChunk (utf8DecodeChunk p a).2 b).1,
       (utf8DecodeChunk (utf8DecodeChunk p a).2 b).2) := by
  induction a with
  | nil => intro p; simp [utf8DecodeChunk]
  | cons x xs ih =>
    intro p
    simp only [List.cons_append, utf8DecodeChunk, List.append_eq, ih,
      List.append_assoc]

/-- Splitting a concatenation whose second part holds no newline: the lines
are those of the first part and the remainders chain. -/
theorem splitNl_append_nil (c : List Nat) (h : (splitNl c).1 = []) :
    ∀ (a : List Nat),
    splitNl (a ++ c) = ((splitNl a).1, (splitNl a).2 ++ (splitNl c).2) := by
  intro a
  induction a with
  | nil =>
    simp only [List.nil_append, splitNl]
    exact Prod.ext h rfl
  | cons x xs ih =>
    by_cases hx : x = 10
    · subst hx
      simp [splitNl, ih]
    · cases hxs : (splitNl xs).1 with
      | nil => simp [splitNl, hx, ih, hxs]
      | cons l0 ls0 => simp [splitNl, hx, ih, hxs]

/-- Splitting a concatenation whose second part holds a newline: the first
line of the second part gets the remainder of the first part prefixed. -/
theorem splitNl_append_cons (c l : List Nat) (ls : List (List Nat))
    (h : (splitNl c).1 = l :: ls) : ∀ (a : List Nat),
    splitNl (a ++ c) =
      ((splitNl a).1 ++ (((splitNl a).2 ++ l) :: ls), (splitNl c).2) := by
  intro a
  induction a with
  | nil =>
    simp only [List.nil_append, splitNl, List.nil_append]
    exact Prod.ext (by simp [h]) rfl
  | cons x xs ih =>
    by_cases hx : x = 10
    · subst hx
      simp [splitNl, ih]
    · cases hxs : (splitNl xs).1 with
      | nil => simp [splitNl, hx, ih, hxs]
      | cons l0 ls0 => simp [splitNl, hx, ih, hxs]

/-- Processing a concatenation of complete-line lists composes, threading
the decoder pending bytes and the accumulator through. -/
theorem processLines_append (ls1 : List (List Nat)) :
    ∀ (ls2 : List (List Nat)) (p buf : List Nat),
    processLines p buf (ls1 ++ ls2) =
      ((processLines p buf ls1).1 ++
         (processLines (processLines p buf ls1).2.1
            (processLines p buf ls1).2.2 ls2).1,
       (processLines (processLines p buf ls1).2.1
          (processLines p buf ls1).2.2 ls2).2.1,
       (processLines (processLines p buf ls1).2.1
          (processLines p buf ls1).2.2 ls2).2.2) := by
  induction ls1 with
  | nil => intro ls2 p buf; simp [processLines]
  | cons l ls ih =>
    intro ls2 p buf
    simp only [List.cons_append, processLines, List.append_eq, ih,
      List.append_assoc]

/-! ## Claim theorems: multi-byte split safety -/

/-- C8: chunking invariance of the read path.  Delivering a byte sequence
to the read-ready callback in two pieces produces exactly the dispatches of
delivering it in one piece (in order) and the same final decoder state and
accumulator, because decoder state persists across decode calls.  In
particular a multi-byte encoded character whose bytes are split across two
reads decodes to the identical dispatched text as a single delivery. -/
theorem multibyte_split_C8 (st : InState) (b1 b2 : List Nat) :
    (input_available st (b1 ++ b2)).1 =
      (input_available st b1).1 ++
        (input_available (input_available st b1).2 b2).1
  ∧ (input_available st (b1 ++ b2)).2 =
      (input_available (input_available st b1).2 b2).2 := by
  cases h2 : (splitNl b2).1 with
  | nil =>
    have hs := splitNl_append_nil b2 h2 b1
    constructor
    · by_cases hR1 : (splitNl b1).2 = [] <;>
        simp [input_available, hs, h2, hR1, processLines]
    · by_cases hR1 : (splitNl b1).2 = [] <;>
        by_cases hR2 : (splitNl b2).2 = [] <;>
          simp [input_available, hs, h2, hR1, hR2, processLines,
            utf8DecodeChunk_append, List.append_assoc]
  | cons l ls =>
    have hs := splitNl_append_cons b2 l ls h2 b1
    constructor
    · by_cases hR1 : (splitNl b1).2 = []
      · have hpa := processLines_append (splitNl b1).1 (l :: ls)
          st.pending st.buf
        simp [input_available, hs, h2, hR1, hpa, processLines,
          List.append_assoc]
      · have hpa := processLines_append (splitNl b1).1
          (((splitNl b1).2 ++ l) :: ls) st.pending st.buf
        simp [input_available, hs, h2, hR1, hpa, processLines,
          utf8DecodeChunk_append, List.append_assoc]
    · by_cases hR1 : (splitNl b1).2 = []
      · have hpa := processLines_append (splitNl b1).1 (l :: ls)
          st.pending st.buf
        by_cases hR2 : (splitNl b2).2 = [] <;>
          simp [input_available, hs, h2, hR1, hR2, hpa, processLines,
            utf8DecodeChunk_append, List.append_assoc]
      · have hpa := processLines_append (splitNl b1).1
          (((splitNl b1).2 ++ l) :: ls) st.pending st.buf
        by_cases hR2 : (splitNl b2).2 = [] <;>
          simp [input_available, hs, h2, hR1, hR2, hpa, processLines,
            utf8DecodeChunk_append, List.append_assoc]

/-! ## Helper lemmas: decoder state validity and newline-free output

The decoder pending bytes the machine can ever hold are a valid lead byte
followed by continuation bytes passing the per-position checks, strictly
shorter than the full sequence.  From such a state the decoder only emits
the ASCII byte itself or a code point of at least 0x80, so text decoded
from newline-free line bytes is newline-free. -/

/-- The decoder pending-byte states reachable by the machine. -/
def validPendingB : List Nat → Bool
  | [] => true
  | [l] => 0xC2 ≤ l && l ≤ 0xF4
  | [l, c1] => 0xC2 ≤ l && l ≤ 0xF4 && utf8ContOk l 1 c1 && 3 ≤ utf8SeqLen l
  | [l, c1, c2] =>
      0xC2 ≤ l && l ≤ 0xF4 && utf8ContOk l 1 c1 && utf8ContOk l 2 c2 &&
        4 ≤ utf8SeqLen l
  | _ => false

theorem utf8SeqLen_cases (l : Nat) :
    utf8SeqLen l = 2 ∨ utf8SeqLen l = 3 ∨ utf8SeqLen l = 4 := by
  unfold utf8SeqLen
  split_ifs <;> simp

theorem utf8SeqLen_eq_two (l : Nat) (h : utf8SeqLen l = 2) : l < 0xE0 := by
  unfold utf8SeqLen at h
  split_ifs at h <;> omega

theorem utf8SeqLen_eq_three (l : Nat) (h : utf8SeqLen l = 3) :
    0xE0 ≤ l ∧ l < 0xF0 := by
  unfold utf8SeqLen at h
  split_ifs at h <;> omega

theorem utf8SeqLen_eq_four (l : Nat) (h : utf8SeqLen l = 4) : 0xF0 ≤ l := by
  unfold utf8SeqLen at h
  split_ifs at h <;> omega

theorem utf8ContOk_bounds (l pos b : Nat) (h : utf8ContOk l pos b = true) :
    0x80 ≤ b ∧ b ≤ 0xBF := by
  unfold utf8ContOk at h
  split_ifs at h <;> simp at h <;> omega

theorem utf8ContOk_e0 (b : Nat) (h : utf8ContOk 0xE0 1 b = true) :
    0xA0 ≤ b := by
  unfold utf8ContOk at h
  split_ifs at h <;> simp_all

theorem utf8ContOk_f0 (b : Nat) (h : utf8ContOk 0xF0 1 b = true) :
    0x90 ≤ b := by
  unfold utf8ContOk at h
  split_ifs at h <;> simp_all

theorem utf8StartByte_emit (b : Nat) : ∀ x ∈ (utf8StartByte b).1, x = b := by
  intro x hx
  unfold utf8StartByte at hx
  split_ifs at hx <;> simp_all

theorem utf8StartByte_valid (b : Nat) :
    validPendingB (utf8StartByte b).2 = true := by
  unfold utf8StartByte
  split_ifs with h1 h2 <;> simp_all [validPendingB]

theorem utf8DecodeSeq_two_ge (l c1 : Nat) (h : 0xC2 ≤ l) :
    0x80 ≤ utf8DecodeSeq [l, c1] := by
  simp only [utf8DecodeSeq]
  omega

theorem utf8DecodeSeq_three_ge (l c1 c2 : Nat) (h : 0xE1 ≤ l ∨ 0xA0 ≤ c1) :
    0x80 ≤ utf8DecodeSeq [l, c1, c2] := by
  simp only [utf8DecodeSeq]
  omega

theorem utf8DecodeSeq_four_ge (l c1 c2 c3 : Nat)
    (h : 0xF1 ≤ l ∨ 0x90 ≤ c1) :
    0x80 ≤ utf8DecodeSeq [l, c1, c2, c3] := by
  simp only [utf8DecodeSeq]
  omega

/-- One decoder step from a reachable pending state: every emitted code
point is either the input byte itself (the ASCII case) or at least 0x80
(a completed multi-byte sequence), and the new pending state is again
reachable. -/
theorem utf8ProcessByte_step (p : List Nat) (b : Nat)
    (hp : validPendingB p = true) :
    (∀ x ∈ (utf8ProcessByte p b).1, x = b ∨ 0x80 ≤ x)
  ∧ validPendingB (utf8ProcessByte p b).2 = true := by
  rcases p with _ | ⟨l, _ | ⟨c1, _ | ⟨c2, _ | ⟨c3, rest⟩⟩⟩⟩
  · exact ⟨fun x hx => Or.inl (utf8StartByte_emit b x hx),
      utf8StartByte_valid b⟩
  · have hl : 0xC2 ≤ l ∧ l ≤ 0xF4 := by
      simpa [validPendingB] using hp
    constructor
    · intro x hx
      simp only [utf8ProcessByte, List.length_nil, List.cons_append,
        List.nil_append, Nat.zero_add] at hx
      split_ifs at hx with hc hcomp
      · simp only [List.mem_singleton] at hx
        refine Or.inr ?_
        rw [hx]
        exact utf8DecodeSeq_two_ge l b (by omega)
      · simp at hx
      · exact Or.inl (utf8StartByte_emit b x hx)
    · simp only [utf8ProcessByte, List.length_nil, List.cons_append,
        List.nil_append, Nat.zero_add]
      split_ifs with hc hcomp
      · simp [validPendingB]
      · have h3 : 3 ≤ utf8SeqLen l := by
          rcases utf8SeqLen_cases l with h | h | h <;> omega
        simp [validPendingB, hl.1, hl.2, h3, hc]
      · exact utf8StartByte_valid b
  · have hl : (0xC2 ≤ l ∧ l ≤ 0xF4) ∧ utf8ContOk l 1 c1 = true ∧
        3 ≤ utf8SeqLen l := by
      have h := hp
      simp [validPendingB] at h
      tauto
    constructor
    · intro x hx
      simp only [utf8ProcessByte, List.length_cons, List.length_nil,
        List.cons_append, List.nil_append, Nat.zero_add] at hx
      split_ifs at hx with hc hcomp
      · simp only [List.mem_singleton] at hx
        refine Or.inr ?_
        rw [hx]
        have hrange : 0xE0 ≤ l ∧ l < 0xF0 := utf8SeqLen_eq_three l (by omega)
        refine utf8DecodeSeq_three_ge l c1 b ?_
        by_cases he0 : l = 0xE0
        · exact Or.inr (utf8ContOk_e0 c1 (he0 ▸ hl.2.1))
        · exact Or.inl (by omega)
      · simp at hx
      · exact Or.inl (utf8StartByte_emit b x hx)
    · simp only [utf8ProcessByte, List.length_cons, List.length_nil,
        List.cons_append, List.nil_append, Nat.zero_add]
      split_ifs with hc hcomp
      · simp [validPendingB]
      · have h4 : utf8SeqLen l = 4 := by
          rcases utf8SeqLen_cases l with h | h | h <;> omega
        simp [validPendingB, hl.1.1, hl.1.2, h4, hl.2.1, hc]
      · exact utf8StartByte_valid b
  · have hl : (0xC2 ≤ l ∧ l ≤ 0xF4) ∧ utf8ContOk l 1 c1 = true ∧
        utf8ContOk l 2 c2 = true ∧ 4 ≤ utf8SeqLen l := by
      have h := hp
      simp [validPendingB] at h
      tauto
    have h4 : utf8SeqLen l = 4 := by
      rcases utf8SeqLen_cases l with h | h | h <;> omega
    have hf0 : 0xF0 ≤ l := utf8SeqLen_eq_four l h4
    constructor
    · intro x hx
      simp only [utf8ProcessByte, List.length_cons, List.length_nil,
        List.cons_append, List.nil_append, Nat.zero_add] at hx
      split_ifs at hx with hc hcomp
      · simp only [List.mem_singleton] at hx
        refine Or.inr ?_
        rw [hx]
        refine utf8DecodeSeq_four_ge l c1 c2 b ?_
        by_cases hef : l = 0xF0
        · exact Or.inr (utf8ContOk_f0 c1 (hef ▸ hl.2.1))
        · exact Or.inl (by omega)
      · simp at hx
      · exact Or.inl (utf8StartByte_emit b x hx)
    · simp only [utf8ProcessByte, List.length_cons, List.length_nil,
        List.cons_append, List.nil_append, Nat.zero_add]
      split_ifs with hc hcomp
      · simp [validPendingB]
      · exfalso
        omega
      · exact utf8StartByte_valid b
  · simp [validPendingB] at hp

/-- Feeding a chunk from a reachable pending state: every emitted code
point is an input byte or at least 0x80, and the final pending state is
reachable. -/
theorem utf8DecodeChunk_step (bytes : List Nat) : ∀ (p : List Nat),
    validPendingB p = true →
    (∀ x ∈ (utf8DecodeChunk p bytes).1, x ∈ bytes ∨ 0x80 ≤ x)
  ∧ validPendingB (utf8DecodeChunk p bytes).2 = true := by
  induction bytes with
  | nil =>
    intro p hp
    exact ⟨by simp [utf8DecodeChunk], hp⟩
  | cons b bs ih =>
    intro p hp
    have h1 := utf8ProcessByte_step p b hp
    have h2 := ih (utf8ProcessByte p b).2 h1.2
    refine ⟨?_, h2.2⟩
    intro x hx
    simp only [utf8DecodeChunk, List.mem_append] at hx
    rcases hx with hx | hx
    · rcases h1.1 x hx with rfl | hge
      · exact Or.inl (List.mem_cons_self x bs)
      · exact Or.inr hge
    · rcases h2.1 x hx with hmem | hge
      · exact Or.inl (List.mem_cons_of_mem b hmem)
      · exact Or.inr hge

/-- The number of complete lines equals the number of newline bytes. -/
theorem splitNl_length (raw : List Nat) :
    (splitNl raw).1.length = countNl raw := by
  induction raw with
  | nil => rfl
  | cons b bs ih =>
    by_cases hb : b = 10
    · simp [splitNl, countNl, hb, ih, Nat.add_comm]
    · cases hxs : (splitNl bs).1 with
      | nil => simp [splitNl, countNl, hb, hxs, ← ih]
      | cons l ls => simp [splitNl, countNl, hb, hxs, ← ih]

/-- Neither the complete lines nor the remainder contain a newline byte. -/
theorem splitNl_no_nl (raw : List Nat) :
    (∀ l ∈ (splitNl raw).1, ∀ x ∈ l, x ≠ 10)
  ∧ (∀ x ∈ (splitNl raw).2, x ≠ 10) := by
  induction raw with
  | nil => simp [splitNl]
  | cons b bs ih =>
    by_cases hb : b = 10
    · subst hb
      have hred : splitNl (10 :: bs) =
          ([] :: (splitNl bs).1, (splitNl bs).2) := by
        simp [splitNl]
      rw [hred]
      constructor
      · intro l hl x hx
        rcases List.mem_cons.mp hl with rfl | hl2
        · simp at hx
        · exact ih.1 l hl2 x hx
      · exact ih.2
    · cases hxs : (splitNl bs).1 with
      | nil =>
        have hred : splitNl (b :: bs) = ([], b :: (splitNl bs).2) := by
          simp [splitNl, hb, hxs]
        rw [hred]
        constructor
        · simp
        · intro x hx
          rcases List.mem_cons.mp hx with rfl | hx2
          · exact hb
          · exact ih.2 x hx2
      | cons l0 ls0 =>
        have hred : splitNl (b :: bs) =
            ((b :: l0) :: ls0, (splitNl bs).2) := by
          simp [splitNl, hb, hxs]
        rw [hred]
        constructor
        · intro l hl x hx
          rcases List.mem_cons.mp hl with rfl | hl2
          · rcases List.mem_cons.mp hx with rfl | hx2
            · exact hb
            · exact ih.1 l0 (by simp [hxs]) x hx2
          · exact ih.1 l (by simp [hxs, List.mem_cons, hl2]) x hx
        · exact ih.2

/-- A byte sequence without newline bytes splits into no lines and itself
as remainder. -/
theorem splitNl_no_newline (raw : List Nat) (h : countNl raw = 0) :
    splitNl raw = ([], raw) := by
  induction raw with
  | nil => rfl
  | cons b bs ih =>
    have hb : ¬ b = 10 := by
      intro hb
      simp [countNl, hb] at h
    have hbs : countNl bs = 0 := by
      simpa [countNl, hb] using h
    simp [splitNl, hb, ih hbs]

/-- One dispatch per complete line. -/
theorem processLines_length (ls : List (List Nat)) : ∀ (p buf : List Nat),
    (processLines p buf ls).1.length = ls.length := by
  induction ls with
  | nil => intro p buf; rfl
  | cons l ls ih =>
    intro p buf
    simp [processLines, ih]

/-- From empty decoder state and empty accumulator, the dispatches are
exactly the decoded lines in order. -/
theorem processLines_map (ls : List (List Nat)) :
    (processLines [] [] ls).1 =
      ls.map (fun l => (utf8DecodeChunk [] l).1) := by
  induction ls with
  | nil => rfl
  | cons l ls ih =>
    simp [processLines, ih]

/-- Processing newline-free lines from a reachable decoder state with a
newline-free accumulator dispatches only newline-free texts and leaves a
reachable decoder state and a newline-free accumulator. -/
theorem processLines_no_nl (ls : List (List Nat)) : ∀ (p buf : List Nat),
    validPendingB p = true → (∀ x ∈ buf, x ≠ 10) →
    (∀ l ∈ ls, ∀ x ∈ l, x ≠ 10) →
    (∀ d ∈ (processLines p buf ls).1, ∀ x ∈ d, x ≠ 10)
  ∧ validPendingB (processLines p buf ls).2.1 = true
  ∧ (∀ x ∈ (processLines p buf ls).2.2, x ≠ 10) := by
  induction ls with
  | nil =>
    intro p buf hp hbuf _
    exact ⟨by simp [processLines], hp, hbuf⟩
  | cons l ls ih =>
    intro p buf hp hbuf hls
    have hdec := utf8DecodeChunk_step l p hp
    have hrec := ih [] [] rfl (by simp)
      (fun l2 hl2 x hx => hls l2 (List.mem_cons_of_mem l hl2) x hx)
    refine ⟨?_, hrec.2.1, hrec.2.2⟩
    intro d hd x hx
    simp only [processLines, List.mem_cons] at hd
    rcases hd with rfl | hd
    · simp only [List.mem_append] at hx
      rcases hx with hx | hx
      · exact hbuf x hx
      · rcases hdec.1 x hx with hmem | hge
        · exact hls l (List.mem_cons_self l ls) x hmem
        · omega
    · exact hrec.1 d hd x hx

/-- Final state of the read callback when no trailing remainder exists. -/
theorem input_available_rem_nil (st : InState) (raw : List Nat)
    (h : (splitNl raw).2 = []) :
    (input_available st raw).2 =
      ⟨(processLines st.pending st.buf (splitNl raw).1).2.1,
       (processLines st.pending st.buf (splitNl raw).1).2.2⟩ := by
  simp [input_available, h]

/-- Final state of the read callback when a trailing remainder exists: it
is decoded non-final into the accumulator. -/
theorem input_available_rem_cons (st : InState) (raw : List Nat)
    (h : ¬ (splitNl raw).2 = []) :
    (input_available st raw).2 =
      ⟨(utf8DecodeChunk (processLines st.pending st.buf (splitNl raw).1).2.1
          (splitNl raw).2).2,
       (processLines st.pending st.buf (splitNl raw).1).2.2 ++
         (utf8DecodeChunk (processLines st.pending st.buf (splitNl raw).1).2.1
            (splitNl raw).2).1⟩ := by
  simp [input_available, h]

/-! ## Claim theorems: line framing -/

/-- C1: line framing.  For every byte sequence delivered to the read-ready
callback from a reachable state: the number of dispatches equals the number
of newline bytes (one per line, in input order); every dispatched text is
newline-free (the terminating newline is stripped and consumed); the state
afterwards is again reachable; when the sequence holds no newline at all,
nothing is dispatched and the whole decoded remainder is retained in the
accumulator (appended to what was already buffered); and from the clean
initial state the dispatched texts are exactly the decoded lines in input
order — so no partial line is ever delivered and no line twice. -/
theorem line_framing_C1 (st : InState) (raw : List Nat)
    (hval : validPendingB st.pending = true)
    (hbuf : ∀ x ∈ st.buf, x ≠ 10) :
    (input_available st raw).1.length = countNl raw
  ∧ (∀ d ∈ (input_available st raw).1, ∀ x ∈ d, x ≠ 10)
  ∧ validPendingB (input_available st raw).2.pending = true
  ∧ (∀ x ∈ (input_available st raw).2.buf, x ≠ 10)
  ∧ (countNl raw = 0 →
      (input_available st raw).1 = []
    ∧ (input_available st raw).2.pending = (utf8DecodeChunk st.pending raw).2
    ∧ (input_available st raw).2.buf =
        st.buf ++ (utf8DecodeChunk st.pending raw).1)
  ∧ (st.pending = [] → st.buf = [] →
      (input_available st raw).1 =
        (splitNl raw).1.map (fun l => (utf8DecodeChunk [] l).1)) := by
  have hsplit := splitNl_no_nl raw
  have hpl := processLines_no_nl (splitNl raw).1 st.pending st.buf hval hbuf
    hsplit.1
  refine ⟨?_, ?_, ?_, ?_, ?_, ?_⟩
  · show (processLines st.pending st.buf (splitNl raw).1).1.length = _
    rw [processLines_length, splitNl_length]
  · exact fun d hd x hx => hpl.1 d hd x hx
  · by_cases hrem : (splitNl raw).2 = []
    · rw [input_available_rem_nil st raw hrem]
      exact hpl.2.1
    · rw [input_available_rem_cons st raw hrem]
      exact (utf8DecodeChunk_step (splitNl raw).2 _ hpl.2.1).2
  · by_cases hrem : (splitNl raw).2 = []
    · rw [input_available_rem_nil st raw hrem]
      exact hpl.2.2
    · rw [input_available_rem_cons st raw hrem]
      intro x hx
      simp only [List.mem_append] at hx
      rcases hx with hx | hx
      · exact hpl.2.2 x hx
      · rcases (utf8DecodeChunk_step (splitNl raw).2 _ hpl.2.1).1 x hx with
          hmem | hge
        · exact hsplit.2 x hmem
        · omega
  · intro h0
    have hs := splitNl_no_newline raw h0
    by_cases hraw : raw = []
    · subst hraw
      exact ⟨rfl, rfl, (List.append_nil st.buf).symm⟩
    · have hrem : (splitNl raw).2 = raw := by rw [hs]
      have hlines : (splitNl raw).1 = [] := by rw [hs]
      have hrne : ¬ (splitNl raw).2 = [] := by rw [hrem]; exact hraw
      refine ⟨?_, ?_, ?_⟩
      · show (processLines st.pending st.buf (splitNl raw).1).1 = []
        rw [hlines]
        rfl
      · rw [input_available_rem_cons st raw hrne, hlines, hrem]
        rfl
      · rw [input_available_rem_cons st raw hrne, hlines, hrem]
        rfl
  · intro hpend hb
    show (processLines st.pending st.buf (splitNl raw).1).1 = _
    rw [hpend, hb, processLines_map]

/-- Witness for C1 at the concrete read 97 10 98 from the clean state. -/
theorem line_framing_C1_witness :
    (input_available ⟨[], []⟩ [97, 10, 98]).1.length = countNl [97, 10, 98]
  ∧ (input_available ⟨[], []⟩ [97, 10, 98]).1 =
      (splitNl [97, 10, 98]).1.map (fun l => (utf8DecodeChunk [] l).1) := by
  refine ⟨(line_framing_C1 ⟨[], []⟩ [97, 10, 98] (by decide) (by decide)).1,
    (line_framing_C1 ⟨[], []⟩ [97, 10, 98] (by decide)
      (by decide)).2.2.2.2.2 rfl rfl⟩

end AsyncioCmdline
